import Mathlib

/-!
Verification of the FastAC access-control engine (github.com/oarkflow/fastac).

The development shallowly embeds the Go sources:
  * `Policy` with `AddRule` / `RemoveRule` (policy/policy.go),
  * the `enforce` driver loop of enforcer.go,
  * the default `RoleManager` (rbac/role_manager.go),
  * the `pathmatch` package (Compile / Match / FindSubmatch).
Go maps are modelled as association lists, Go errors as `Option String`
(`none` = nil), and mutation as explicit state passing.  Values that the
Go code only reads through an interface whose implementation is not part
of the sources (the effector, the rule fingerprint, the pattern
sub-matcher, the fields of `Role`) are taken as parameters or modelled
from the specification; each such place is marked in its doc comment.
-/

namespace Fastac

/-! ## Rule tables (policy/policy.go) -/

/-- Events the policy table emits through its `Emitter`
(EVT_RULE_ADDED, EVT_RULE_REMOVED, EVT_CLEARED). -/
inductive PolicyEvent
  | ruleAdded (rule : List String)
  | ruleRemoved (rule : List String)
  | cleared
deriving DecidableEq

/-- State of `Policy`: `ruleMap` is the Go `map[string][]string` keyed by
the fingerprint `util.Hash(rule)` (association list, insertion order), and
`events` is the log of everything emitted so far. -/
structure Policy where
  ruleMap : List (String × List String)
  events : List PolicyEvent
deriving DecidableEq

/-- AddRule from policy.go: reject silently when the fingerprint is
present, otherwise store and emit RULE_ADDED.  `hash` stands for
`util.Hash`, whose source is not part of the repository files; the
operations only compare its outputs, so it is a parameter. -/
def Policy.AddRule (hash : List String → String) (p : Policy) (rule : List String) :
    (Bool × Option String) × Policy :=
  let key := hash rule
  if (p.ruleMap.find? (fun kv => kv.1 == key)).isSome then
    ((false, none), p)
  else
    ((true, none),
      { ruleMap := p.ruleMap ++ [(key, rule)],
        events := p.events ++ [PolicyEvent.ruleAdded rule] })

/-- RemoveRule from policy.go: no-op when the fingerprint is absent,
otherwise delete and emit RULE_REMOVED. -/
def Policy.RemoveRule (hash : List String → String) (p : Policy) (rule : List String) :
    (Bool × Option String) × Policy :=
  let key := hash rule
  if (p.ruleMap.find? (fun kv => kv.1 == key)).isSome then
    ((true, none),
      { ruleMap := p.ruleMap.filter (fun kv => kv.1 != key),
        events := p.events ++ [PolicyEvent.ruleRemoved rule] })
  else
    ((false, none), p)

/-! ## The enforce driver (enforcer.go, `Enforcer.enforce`) -/

/-- Effects of model/eft. -/
inductive Effect
  | allow
  | deny
  | indeterminate
deriving DecidableEq

/-- Result triple of `Effector.MergeEffects`: decision, explanatory
indices, error. -/
structure MergeOut where
  eff : Effect
  explain : List Nat
  err : Option String

/-- State of the rule-iteration loop inside `Enforcer.enforce` when it
stops: the local variables res, effects, matches (here `matched`) and eftErr. -/
structure LoopOut where
  res : Effect
  effects : List Effect
  matched : List (List String)
  eftErr : Option String
deriving DecidableEq

/-- The visitor loop of `Enforcer.enforce`: for each matched rule append
its effect and the rule, call MergeEffects with complete=false,
and stop the iteration as soon as the effector reports an error or a
non-indeterminate decision.  `merge` stands for the chosen effector and
`getEft` for `PolicyDef.GetEft`; both live behind interfaces whose
implementations are outside the repository files. -/
def enforceLoop (merge : List Effect → List (List String) → Bool → MergeOut)
    (getEft : List String → Effect) :
    List (List String) → List Effect → List (List String) → Effect → LoopOut
  | [], effects, ms, res => ⟨res, effects, ms, none⟩
  | rule :: rest, effects, ms, _ =>
    let effects' := effects ++ [getEft rule]
    let ms' := ms ++ [rule]
    let out := merge effects' ms' false
    if out.err.isSome ∨ out.eff ≠ Effect.indeterminate then
      ⟨out.eff, effects', ms', out.err⟩
    else
      enforceLoop merge getEft rest effects' ms' out.eff

/-- The decision `Enforcer.enforce` compares against Allow: the result of
the iteration, or of one final MergeEffects call with complete=true
when the iteration ended indeterminate. -/
def finalDecision (merge : List Effect → List (List String) → Bool → MergeOut)
    (getEft : List String → Effect) (rules : List (List String)) : Effect :=
  let o := enforceLoop merge getEft rules [] [] Effect.indeterminate
  if o.res = Effect.indeterminate then (merge o.effects o.matched true).eff else o.res

/-- Enforcer.enforce of enforcer.go, given the stream of rules the
matcher driver delivers: run the loop; on an effector error return
(false, nil) as the code does on that path; otherwise resolve an
indeterminate result with one complete=true call and return whether the
decision is Allow. -/
def enforce (merge : List Effect → List (List String) → Bool → MergeOut)
    (getEft : List String → Effect) (rules : List (List String)) : Bool × Option String :=
  let o := enforceLoop merge getEft rules [] [] Effect.indeterminate
  if o.eftErr.isSome then (false, none)
  else (decide (finalDecision merge getEft rules = Effect.allow), none)

/-! ## The default role manager (rbac/role_manager.go)

The file role.go that defines the `Role` node itself is not among the
repository files, so its fields and helpers follow the specification:
a Role carries its name, the adjacency set of inherited roles, the
reverse adjacency set, the set of match edges and the set of redundant
markers; `rangeRoles` iterates the adjacency set, `getRoles` and
`getUsers` read the two adjacency sets, `addMatch` installs a match edge
on the pattern role and `removeMatches` clears the match edges that
involve the removed role.  Everything else below is translated from
role_manager.go.  The `sync.Map` fields become association lists, the
bounded LRU cache in front of the sub-matcher is dropped (it memoises a
pure function), and the sub-matcher itself is a parameter. -/

/-- The pattern sub-matcher interface util.IMatcher. -/
structure SubMatcher where
  mtch : String → String → Bool
  isPattern : String → Bool

/-- Modelled from the spec: a Role node with its name, adjacency set,
reverse adjacency set, match edges and redundant markers (all by name). -/
structure Role where
  name : String
  roles : List String
  users : List String
  matched : List String
  redundant : List String
deriving DecidableEq

/-- Modelled from the spec: a fresh role with no edges. -/
def newRole (name : String) : Role := ⟨name, [], [], [], []⟩

/-- State of the default RoleManager: allRoles and patternRoles as
association structures, the configured depth bound and the optional
sub-matcher. -/
structure RoleManager where
  allRoles : List (String × Role)
  patternRoles : List String
  maxHierarchyLevel : Nat
  matcher : Option SubMatcher

/-- Lookup in allRoles (sync.Map Load). -/
def RoleManager.load (rm : RoleManager) (name : String) : Option Role :=
  (rm.allRoles.find? (fun kv => kv.1 == name)).map (fun kv => kv.2)

/-- RoleManager.match: the guarded sub-matcher call (the LRU cache around
it memoises this pure function and is semantically transparent).  A nil
matcher never matches, mirroring the `rm.matcher != nil &&` guards at
every call site. -/
def RoleManager.mtch (rm : RoleManager) (s pattern : String) : Bool :=
  match rm.matcher with
  | some m => m.mtch s pattern
  | none => false

/-- Replace the value stored under a key of allRoles, keys unchanged. -/
def RoleManager.updateRole (rm : RoleManager) (name : String) (f : Role → Role) :
    RoleManager :=
  { rm with allRoles := rm.allRoles.map (fun kv => if kv.1 = name then (kv.1, f kv.2) else kv) }

/-- RoleManager.getRole: load the role, or create it, store it, and when
a sub-matcher is installed connect it to the pattern roles — a new
pattern role collects a match edge to every existing role its pattern
matches (rangeMatchingRoles), a new plain role is added to the match
edges of every pattern that matches it (rangeMatchingPatterns).  Returns
the role, the new state and the created flag. -/
def RoleManager.getRole (rm : RoleManager) (name : String) : Role × RoleManager × Bool :=
  match rm.load name with
  | some r => (r, rm, false)
  | none =>
    let role := newRole name
    let rm1 : RoleManager := { rm with allRoles := rm.allRoles ++ [(name, role)] }
    match rm.matcher with
    | none => (role, rm1, true)
    | some m =>
      if m.isPattern name then
        let ms := (rm.allRoles.map Prod.fst).filter (fun n => n != name && rm.mtch n name)
        let role' : Role := { role with matched := ms }
        let rm2 := ({ rm1 with patternRoles := rm1.patternRoles ++ [name] }).updateRole
          name (fun r => { r with matched := ms })
        (role', rm2, true)
      else
        let rm2 : RoleManager := { rm1 with allRoles := rm1.allRoles.map (fun kv =>
          if kv.1 ≠ name ∧ kv.1 ∈ rm1.patternRoles ∧ rm.mtch name kv.1 then
            (kv.1, { kv.2 with matched := kv.2.matched ++ [name] })
          else kv) }
        (role, rm2, true)

/-- RoleManager.removeRole: delete the role from allRoles, clear the
match edges that involve it (removeMatches, modelled from the spec) and
delete it from patternRoles. -/
def RoleManager.removeRole (rm : RoleManager) (name : String) : RoleManager :=
  let present := (rm.load name).isSome
  let base := rm.allRoles.filter (fun kv => kv.1 != name)
  let all := if present then
      base.map (fun kv => (kv.1, { kv.2 with matched := kv.2.matched.filter (fun n => n != name) }))
    else base
  { rm with allRoles := all, patternRoles := rm.patternRoles.filter (fun n => n != name) }

/-- The hit condition of hasLinkHelper on one frontier role: its name is
the target, or the sub-matcher matches its name against the target. -/
def RoleManager.hitTarget (rm : RoleManager) (target name : String) : Bool :=
  name == target || rm.mtch name target

/-- Adjacency of one node as hasLinkHelper reads it through rangeRoles. -/
def RoleManager.roleNeighbors (rm : RoleManager) (name : String) : List String :=
  match rm.load name with
  | some r => r.roles
  | none => []

/-- One breadth-first expansion: the union of the adjacency of every
frontier node (the nextRoles map of hasLinkHelper). -/
def RoleManager.expandFrontier (rm : RoleManager) (frontier : List String) : List String :=
  frontier.flatMap rm.roleNeighbors

/-- Iterated frontier expansion. -/
def RoleManager.expandK (rm : RoleManager) : List String → Nat → List String
  | f, 0 => f
  | f, k + 1 => rm.expandK (rm.expandFrontier f) k

/-- RoleManager.hasLinkHelper: a per-level breadth-first search.  At
level zero or on an empty frontier it returns false; it returns true as
soon as some frontier node hits the target; otherwise it recurses on the
expanded frontier with one level less. -/
def RoleManager.hasLinkHelper (rm : RoleManager) (target : String) :
    List String → Nat → Bool
  | _, 0 => false
  | frontier, level + 1 =>
    if frontier.isEmpty then false
    else if frontier.any (rm.hitTarget target) then true
    else rm.hasLinkHelper target (rm.expandFrontier frontier) level

/-- RoleManager.HasLink: short-circuit on name equality or a sub-matcher
match, otherwise materialise both roles, search with the depth bound
maxHierarchyLevel, and remove the roles that were created only for this
query (the deferred removeRole calls, in their LIFO order).  Returns the
answer, the error (always nil) and the final state. -/
def RoleManager.HasLink (rm : RoleManager) (name1 name2 : String) :
    Bool × Option String × RoleManager :=
  if name1 = name2 ∨ rm.mtch name1 name2 then (true, none, rm)
  else
    match rm.getRole name1 with
    | (user, rm1, userCreated) =>
      match rm1.getRole name2 with
      | (role, rm2, roleCreated) =>
        let res := rm2.hasLinkHelper role.name [user.name] rm2.maxHierarchyLevel
        let rm3 := if roleCreated then rm2.removeRole role.name else rm2
        let rm4 := if userCreated then rm3.removeRole user.name else rm3
        (res, none, rm4)

/-- RoleManager.GetRoles: the adjacency set of the materialised role,
removing it again when it was created for the query. -/
def RoleManager.GetRoles (rm : RoleManager) (name : String) :
    List String × Option String × RoleManager :=
  match rm.getRole name with
  | (user, rm1, created) =>
    let rm2 := if created then rm1.removeRole user.name else rm1
    (user.roles, none, rm2)

/-- RoleManager.GetUsers: the reverse adjacency set of the materialised
role, removing it again when it was created for the query. -/
def RoleManager.GetUsers (rm : RoleManager) (name : String) :
    List String × Option String × RoleManager :=
  match rm.getRole name with
  | (role, rm1, created) =>
    let rm2 := if created then rm1.removeRole role.name else rm1
    (role.users, none, rm2)

/-- The set of stored role names (the key set of allRoles). -/
def RoleManager.roleKeys (rm : RoleManager) : List String := rm.allRoles.map Prod.fst

/-- Adjacency of one node read off a raw association list. -/
def nbrsL (l : List (String × Role)) (n : String) : List String :=
  match (l.find? (fun kv => kv.1 == n)).map (fun kv => kv.2) with
  | some r => r.roles
  | none => []

/-- Concrete two-node cycle used to exercise the bounded search. -/
def rmCyc : RoleManager :=
  ⟨[("a", ⟨"a", ["b"], [], [], []⟩), ("b", ⟨"b", ["a"], [], [], []⟩)], [], 3, none⟩

/-! ## The path matcher (pathmatch package)

Go strings are modelled as lists of characters (`List Char`), so the
byte-index arithmetic of the Go code becomes list-index arithmetic;
`strings.Index` is `idxOf`, `strings.Split` is `goSplit`, slicing is
`sliceStr` (Go panics on out-of-range slice bounds, the model clamps).
Capture maps are association lists in insertion order with the
overwrite semantics of Go map assignment.  The imperative matching loop
of `Path.getMatch` carries explicit loop state plus a fuel argument
that strictly exceeds the number of iterations the loop can make (each
backtrack strictly grows the savepoint searchStart, bounded by the
input length, and between backtracks the segment index only climbs), so
the fuel never runs out on the chosen bound. -/

/-- Index of the first occurrence of `pat` in `s` (strings.Index):
`some i` for the leftmost match, `none` when absent, `some 0` for the
empty pattern. -/
def idxOf (pat : List Char) : List Char → Option Nat
  | [] => if pat.isEmpty then some 0 else none
  | c :: t => if pat.isPrefixOf (c :: t) then some 0 else (idxOf pat t).map (· + 1)

/-- Splitting on a non-empty separator (strings.Split, leftmost,
non-overlapping), structured on a fuel that the input length saturates:
every recursive call drops at least one character. -/
def splitOnFuel (sep : List Char) : Nat → List Char → List (List Char)
  | _, [] => [[]]
  | 0, s => [s]
  | fuel + 1, c :: t =>
    if sep.isPrefixOf (c :: t) ∧ sep ≠ [] then
      [] :: splitOnFuel sep fuel ((c :: t).drop sep.length)
    else
      match splitOnFuel sep fuel t with
      | [] => [[c]]
      | h2 :: rest => (c :: h2) :: rest

/-- Splitting on a non-empty separator (strings.Split, leftmost,
non-overlapping). -/
def splitOn (sep s : List Char) : List (List Char) := splitOnFuel sep s.length s

/-- strings.Split including its special case for the empty separator
(split into single characters; the empty string gives no segments). -/
def goSplit (s sep : List Char) : List (List Char) :=
  if sep.isEmpty then s.map (fun c => [c]) else splitOn sep s

/-- Slice s[a:b] with clamping. -/
def sliceStr (s : List Char) (a b : Nat) : List Char := (s.take b).drop a

/-- A Go string made from a character list. -/
def strOf (l : List Char) : String := String.mk l

/-- The characters of a string literal (inverse of strOf). -/
def gs (s : String) : List Char := s.toList

/-- The compiled segment kinds of pathmatch (ISegment implementations). -/
inductive Seg
  | static (value : List Char)
  | param (key : String) (eqc : Bool)
  | wildcard (key : String)
  | mixed (keys : List String) (statics : List (List Char))
deriving DecidableEq

/-- ISegment.Multiple: only a wildcard can span several input segments. -/
def segMultiple : Seg → Bool
  | Seg.wildcard _ => true
  | _ => false

/-- The option state of a Path: separator, parameter prefix and suffix,
wildcard literal, equality-check flag (the Option functions of
options.go write exactly these fields; SetPrefix rejects an empty
prefix). -/
structure PathOpts where
  sep : List Char
  pfx : List Char
  sfx : List Char
  wc : List Char
  equalCheck : Bool
deriving DecidableEq

/-- The defaults set by Compile before options run. -/
def defaultOpts : PathOpts := ⟨gs "/", gs ":", [], gs "*", false⟩

/-- A compiled Path: its options and its segment sequence. -/
structure PathM where
  opts : PathOpts
  segs : List Seg
deriving DecidableEq

/-- The matchDraft: the capture flag and the capture map. -/
structure Draft where
  capture : Bool
  vals : List (String × String)
deriving DecidableEq

/-- Map lookup in a capture map. -/
def lookupKV (l : List (String × String)) (k : String) : Option String :=
  (l.find? (fun kv => kv.1 == k)).map (fun kv => kv.2)

/-- Map assignment with overwrite (Go m[k] = v). -/
def setKV (l : List (String × String)) (k v : String) : List (String × String) :=
  if (l.find? (fun kv => kv.1 == k)).isSome then
    l.map (fun kv => if kv.1 = k then (k, v) else kv)
  else l ++ [(k, v)]

/-- matchDraft.set: record a capture only when capturing. -/
def draftSet (d : Draft) (k v : String) : Draft :=
  if d.capture then { d with vals := setKV d.vals k v } else d

/-- The loop of mixedSegment.Match: each static piece must sit at the
current position, the capture runs to the first occurrence of the next
static piece (or the end when that piece is empty); the final list
entry is the trailing static, checked against the end of the input. -/
def mixedMatchAux (s : List Char) :
    List String → List (List Char) → Draft → Nat → Option Draft
  | [], [lastStatic], d, keyEnd =>
    if s.length = keyEnd + lastStatic.length then some d else none
  | [], _, _, _ => none
  | _ :: _, [], _, _ => none
  | key :: ks, sta :: rest, d, keyEnd =>
    if idxOf sta (s.drop keyEnd) = some 0 then
      let keyStart := keyEnd + sta.length
      match rest.head? with
      | none => none
      | some nextSta =>
        match (if nextSta.isEmpty then some (s.length - keyStart)
               else idxOf nextSta (s.drop keyStart)) with
        | none => none
        | some kl =>
          mixedMatchAux s ks rest
            (draftSet d key (strOf (sliceStr s keyStart (keyStart + kl))))
            (keyStart + kl)
    else none

/-- ISegment.Match for each segment kind (segment.go). -/
def segMatch : Seg → Draft → List Char → Option Draft
  | Seg.static v, d, s => if s = v then some d else none
  | Seg.param key eqc, d, s =>
    match lookupKV d.vals key with
    | some v => if eqc ∧ strOf s ≠ v then none else some (draftSet d key (strOf s))
    | none => some (draftSet d key (strOf s))
  | Seg.wildcard key, d, s => some (draftSet d key (strOf s))
  | Seg.mixed keys statics, d, s => mixedMatchAux s keys statics d 0

/-- The savepoint used for wildcard backtracking. -/
structure SaveP where
  i : Nat
  sIdx : Nat
  searchStart : Nat
  valid : Bool
deriving DecidableEq

/-- sliceSegment of pathmatch.go: the input slice from `start` up to the
first separator found at or after `offset`, and whether the rest of the
input holds no further separator (done). -/
def sliceSegment (s sep : List Char) (start offset : Nat) : List Char × Bool :=
  let str := s.drop start
  match idxOf sep (str.drop offset) with
  | none => (str, true)
  | some i => (str.take (i + offset), false)

/-- segmentLen of pathmatch.go. -/
def segLen (str sep : List Char) (done : Bool) : Nat :=
  if done then str.length else str.length + sep.length

/-- The savepoint update a multiple (wildcard) segment performs before
matching: refresh the searchStart of the current savepoint, or install
a fresh savepoint at this position; other segments leave it alone. -/
def saveUpdate (seg : Seg) (i sIdx : Nat) (str sep : List Char) (done : Bool)
    (save : SaveP) : SaveP :=
  if segMultiple seg then
    (if save.valid ∧ save.i = i then
      { save with searchStart := segLen str sep done }
    else ⟨i, sIdx, segLen str sep done, true⟩)
  else save

/-- The loop of Path.getMatch with its state (segment index, input
index, search offset, savepoint, draft) made explicit; returns the
final draft (none encodes both a nil draft and an early `return nil`)
and the final input index for the whole-input check.  The first fuel
argument dominates the iteration count. -/
def getMatchLoop (p : PathM) (s : List Char) :
    Nat → Nat → Nat → Nat → SaveP → Draft → Option Draft × Nat
  | 0, _, sIdx, _, _, _ => (none, sIdx)
  | fuel + 1, i, sIdx, searchStart, save, draft =>
    match p.segs.get? i with
    | none => (some draft, sIdx)
    | some seg =>
      let sd := sliceSegment s p.opts.sep sIdx searchStart
      let str := sd.1
      let done := sd.2
      let isLast := p.segs.length - 1 = i
      if done ∧ ¬ isLast then (none, sIdx)
      else if segMultiple seg ∧ isLast then
        (segMatch seg draft (s.drop sIdx), s.length)
      else
        let save1 := saveUpdate seg i sIdx str p.opts.sep done save
        match segMatch seg draft str with
        | none =>
          if save1.valid then
            getMatchLoop p s fuel save1.i save1.sIdx save1.searchStart save1 draft
          else (none, sIdx)
        | some d =>
          let sIdx' := sIdx + segLen str p.opts.sep done
          if isLast ∧ ¬ done then (none, sIdx')
          else getMatchLoop p s fuel (i + 1) sIdx' 0 save1 d

/-- Path.getMatch before its final whole-input check: loop result and
final input index, starting from a fresh savepoint and draft. -/
def getMatchFull (p : PathM) (s : List Char) (capture : Bool) : Option Draft × Nat :=
  getMatchLoop p s ((s.length + 2) * (p.segs.length + 2) + 2) 0 0 0 ⟨0, 0, 0, false⟩
    ⟨capture, []⟩

/-- Path.getMatch: nil unless the loop kept a draft and consumed the
whole input; otherwise the capture map. -/
def getMatch (p : PathM) (s : List Char) (capture : Bool) :
    Option (List (String × String)) :=
  match getMatchFull p s capture with
  | (none, _) => none
  | (some d, sIdx) => if s.length = sIdx then some d.vals else none

/-- Path.Match: a capture-free run (capture only when the equality check
needs the map), true when the result map is non-nil. -/
def PathM.Match (p : PathM) (s : List Char) : Bool :=
  (getMatch p s p.opts.equalCheck).isSome

/-- Path.FindSubmatch: the capture map itself, or none. -/
def PathM.FindSubmatch (p : PathM) (s : List Char) : Option (List (String × String)) :=
  getMatch p s true

/-- The compile errors of pathmatch, by kind: suffix not found
(unterminated suffix), prefix not followed by a name character, no
character between adjacent keys. -/
inductive CompileErr
  | sfxNotFound
  | bareKey
  | emptyBetween
deriving DecidableEq

/-- A character outside the terminator set of the regular expression
`[^.?=&#:]+`. -/
def isNameChar (c : Char) : Bool :=
  !(c = Char.ofNat 46 ∨ c = Char.ofNat 63 ∨ c = Char.ofNat 61 ∨ c = Char.ofNat 38 ∨
    c = Char.ofNat 35 ∨ c = Char.ofNat 58)

/-- FindStringIndex of that expression: the first maximal run of name
characters, as a half-open interval. -/
def findRun (s : List Char) : Option (Nat × Nat) :=
  match s.findIdx? isNameChar with
  | none => none
  | some i => some (i, i + ((s.drop i).takeWhile isNameChar).length)

/-- The key-scanning loop of Compile for one pattern segment, from the
prefix occurrence `ip`: with a configured suffix the key runs to the
suffix (error when absent); with the empty suffix the key is the name
run right after the prefix (error when empty); then scan on from the
end of the prefix for the next prefix occurrence.  Accumulates the keys
and their location pairs.  The fuel dominates the iteration count for a
non-empty prefix (Go loops forever on an empty prefix, which the option
setter rejects). -/
def scanKeys (o : PathOpts) (sseg : List Char) :
    Nat → Nat → List String → List (Nat × Nat) →
    Except CompileErr (List String × List (Nat × Nat))
  | 0, _, keys, locs => Except.ok (keys, locs)
  | fuel + 1, ip, keys, locs =>
    let keyStart := ip + o.pfx.length
    if o.sfx.isEmpty then
      match findRun (sseg.drop keyStart) with
      | none => Except.error CompileErr.bareKey
      | some loc =>
        if loc.1 ≠ 0 then Except.error CompileErr.bareKey
        else
          let key := strOf (sliceStr sseg keyStart (keyStart + loc.2))
          let keys' := keys ++ [key]
          let locs' := locs ++ [(ip, keyStart + loc.2)]
          match idxOf o.pfx (sseg.drop keyStart) with
          | none => Except.ok (keys', locs')
          | some j => scanKeys o sseg fuel (keyStart + j) keys' locs'
    else
      match idxOf o.sfx (sseg.drop ip) with
      | none => Except.error CompileErr.sfxNotFound
      | some isuf =>
        let key := strOf (sliceStr sseg keyStart (ip + isuf))
        let keys' := keys ++ [key]
        let locs' := locs ++ [(ip, ip + isuf + o.sfx.length)]
        match idxOf o.pfx (sseg.drop keyStart) with
        | none => Except.ok (keys', locs')
        | some j => scanKeys o sseg fuel (keyStart + j) keys' locs'

/-- newMixedSegment: cut the static pieces around the key locations,
rejecting an empty piece between two keys; the last piece is the tail
after the final key. -/
def mixedStatics (sseg : List Char) :
    Nat → Bool → List (Nat × Nat) → Except CompileErr (List (List Char))
  | start, _, [] => Except.ok [sseg.drop start]
  | start, first, (a, b) :: rest =>
    let piece := sliceStr sseg start a
    if ¬ first ∧ piece.isEmpty then Except.error CompileErr.emptyBetween
    else (mixedStatics sseg b false rest).map (fun l => piece :: l)

/-- Compile for one non-wildcard pattern segment (the part of the
Compile loop body that never reads the wildcard counter): a segment
without the prefix is static; otherwise the keys are scanned and the
segment is a single parameter when its one location spans the whole
segment, else a mixed segment. -/
def segParse (o : PathOpts) (sseg : List Char) : Except CompileErr Seg :=
  match idxOf o.pfx sseg with
  | none => Except.ok (Seg.static sseg)
  | some ip =>
    match scanKeys o sseg (sseg.length + 1) ip [] [] with
    | Except.error e => Except.error e
    | Except.ok (keys, locs) =>
      match keys, locs with
      | [k], [(a, b)] =>
        if b - a = sseg.length then Except.ok (Seg.param k o.equalCheck)
        else
          (mixedStatics sseg 0 true [(a, b)]).map
            (fun statics => Seg.mixed [k] statics)
      | _, _ =>
        (mixedStatics sseg 0 true locs).map
          (fun statics => Seg.mixed keys statics)

/-- Compile for one pattern segment with the running wildcard counter:
the wildcard literal becomes a wildcard segment keyed by the counter,
everything else goes through segParse and leaves the counter alone. -/
def compileSeg (o : PathOpts) (unnamed : Nat) (sseg : List Char) :
    Except CompileErr (Seg × Nat) :=
  if sseg = o.wc then
    Except.ok (Seg.wildcard ("$" ++ toString unnamed), unnamed + 1)
  else
    (segParse o sseg).map (fun seg => (seg, unnamed))

/-- Compile over the separated segments, threading the wildcard counter
and stopping at the first error. -/
def compileSegsAux (o : PathOpts) : List (List Char) → Nat → Except CompileErr (List Seg)
  | [], _ => Except.ok []
  | sseg :: rest, unnamed =>
    match compileSeg o unnamed sseg with
    | Except.error e => Except.error e
    | Except.ok (seg, u') => (compileSegsAux o rest u').map (fun l => seg :: l)

/-- Decidable equality for compile results. -/
def exceptDecEq {e a : Type} [DecidableEq e] [DecidableEq a] :
    DecidableEq (Except e a)
  | Except.error x, Except.error y =>
    if h : x = y then Decidable.isTrue (by rw [h])
    else Decidable.isFalse (by intro hx; cases hx; exact h rfl)
  | Except.error _, Except.ok _ => Decidable.isFalse (by intro hx; cases hx)
  | Except.ok _, Except.error _ => Decidable.isFalse (by intro hx; cases hx)
  | Except.ok x, Except.ok y =>
    if h : x = y then Decidable.isTrue (by rw [h])
    else Decidable.isFalse (by intro hx; cases hx; exact h rfl)

instance {e a : Type} [DecidableEq e] [DecidableEq a] : DecidableEq (Except e a) :=
  exceptDecEq

/-- pathmatch.Compile with the already-applied options. -/
def Compile (o : PathOpts) (path : List Char) : Except CompileErr PathM :=
  (compileSegsAux o (goSplit path o.sep) 0).map (fun segs => ⟨o, segs⟩)

/-- A compiled path for the pattern consisting of the literal foo
segment followed by one parameter. -/
def pFooName : PathM := ⟨defaultOpts, [Seg.static [], Seg.static (gs "foo"), Seg.param "name" false]⟩

/-- The keys of the wildcard segments of a compiled path, in order. -/
def wildcardKeys : List Seg → List String
  | [] => []
  | Seg.wildcard k :: rest => k :: wildcardKeys rest
  | _ :: rest => wildcardKeys rest

/-- The compiled form of the pattern consisting of the empty static
segment and one wildcard (the pattern slash star). -/
def pStar : PathM := ⟨defaultOpts, [Seg.static [], Seg.wildcard "$0"]⟩

/-- The error, if any, that the Compile loop body yields for one
segment: wildcard segments never fail, everything else fails exactly
when segParse does. -/
def segError (o : PathOpts) (sseg : List Char) : Option CompileErr :=
  if sseg = o.wc then none
  else
    match segParse o sseg with
    | Except.error e => some e
    | Except.ok _ => none

/-- CLAIM C3: on a duplicate fingerprint AddRule returns (false, nil),
leaves the table unchanged and emits nothing; on an absent fingerprint
RemoveRule returns (false, nil), leaves the table unchanged and emits
nothing; neither ever returns a non-nil error; and two successive
AddRule of the same rule from a state without it emit exactly one
RULE_ADDED event. -/
theorem policy_add_remove_noop (hash : List String → String) (p : Policy) (r : List String) :
    ((p.ruleMap.find? (fun kv => kv.1 == hash r)).isSome →
      Policy.AddRule hash p r = ((false, none), p))
    ∧ ((p.ruleMap.find? (fun kv => kv.1 == hash r)).isSome = false →
      Policy.RemoveRule hash p r = ((false, none), p))
    ∧ (Policy.AddRule hash p r).1.2 = none
    ∧ (Policy.RemoveRule hash p r).1.2 = none
    ∧ ((p.ruleMap.find? (fun kv => kv.1 == hash r)).isSome = false →
      (Policy.AddRule hash (Policy.AddRule hash p r).2 r).2.events
        = p.events ++ [PolicyEvent.ruleAdded r]) := by
  refine ⟨?_, ?_, ?_, ?_, ?_⟩
  · intro h
    simp [Policy.AddRule, h]
  · intro h
    simp [Policy.RemoveRule, h]
  · by_cases h : (p.ruleMap.find? (fun kv => kv.1 == hash r)).isSome <;>
      simp [Policy.AddRule, h]
  · by_cases h : (p.ruleMap.find? (fun kv => kv.1 == hash r)).isSome <;>
      simp [Policy.RemoveRule, h]
  · intro h
    have h1 : Policy.AddRule hash p r =
        ((true, none),
          { ruleMap := p.ruleMap ++ [(hash r, r)],
            events := p.events ++ [PolicyEvent.ruleAdded r] }) := by
      simp [Policy.AddRule, h]
    have h2 : (((p.ruleMap ++ [(hash r, r)]).find?
        (fun kv => kv.1 == hash r)).isSome : Prop) := by
      rw [List.find?_append]
      cases hfind : p.ruleMap.find? (fun kv => kv.1 == hash r) with
      | none => simp
      | some kv => rw [hfind] at h; simp at h
    rw [h1]
    simp only [Policy.AddRule, h2, if_pos]

/-- Witness for C3 at a concrete table: adding the rule a second time is
rejected, removing an absent rule is rejected, and the double add emits
one RULE_ADDED. -/
theorem policy_add_remove_noop_witness :
    Policy.AddRule (fun r => String.intercalate "," r)
        ⟨[("p,alice", ["p", "alice"])], []⟩ ["p", "alice"]
      = ((false, none), ⟨[("p,alice", ["p", "alice"])], []⟩)
    ∧ Policy.RemoveRule (fun r => String.intercalate "," r)
        ⟨[], []⟩ ["p", "alice"]
      = ((false, none), ⟨[], []⟩)
    ∧ (Policy.AddRule (fun r => String.intercalate "," r)
        (Policy.AddRule (fun r => String.intercalate "," r) ⟨[], []⟩ ["p", "alice"]).2
        ["p", "alice"]).2.events = [PolicyEvent.ruleAdded ["p", "alice"]] := by
  refine ⟨?_, ?_, ?_⟩
  · exact (policy_add_remove_noop (fun r => String.intercalate "," r)
      ⟨[("p,alice", ["p", "alice"])], []⟩ ["p", "alice"]).1 (by decide)
  · exact (policy_add_remove_noop (fun r => String.intercalate "," r)
      ⟨[], []⟩ ["p", "alice"]).2.1 (by decide)
  · exact (policy_add_remove_noop (fun r => String.intercalate "," r)
      ⟨[], []⟩ ["p", "alice"]).2.2.2.2 (by decide)

/-- CLAIM C1: the driver protocol between `Enforcer.enforce` and the
effector.  (i) When MergeEffects with complete=false yields Indeterminate
and no error, the iteration continues with the extended accumulators.
(ii) The moment it yields a non-indeterminate decision, the iteration
stops with that decision, the remaining rules untouched.  (iii) When the
whole iteration ends without an error, the boolean result of enforce is
exactly whether the final decision is Allow, where an iteration that is
still Indeterminate is resolved by exactly one MergeEffects call with
complete=true. -/
theorem enforce_effector_protocol
    (merge : List Effect → List (List String) → Bool → MergeOut)
    (getEft : List String → Effect) :
    (∀ rule rest effects ms res,
      (merge (effects ++ [getEft rule]) (ms ++ [rule]) false).eff = Effect.indeterminate →
      (merge (effects ++ [getEft rule]) (ms ++ [rule]) false).err = none →
      enforceLoop merge getEft (rule :: rest) effects ms res
        = enforceLoop merge getEft rest (effects ++ [getEft rule]) (ms ++ [rule])
            Effect.indeterminate)
    ∧ (∀ rule rest effects ms res,
      (merge (effects ++ [getEft rule]) (ms ++ [rule]) false).eff ≠ Effect.indeterminate →
      enforceLoop merge getEft (rule :: rest) effects ms res
        = ⟨(merge (effects ++ [getEft rule]) (ms ++ [rule]) false).eff,
            effects ++ [getEft rule], ms ++ [rule],
            (merge (effects ++ [getEft rule]) (ms ++ [rule]) false).err⟩)
    ∧ (∀ rules,
      (enforceLoop merge getEft rules [] [] Effect.indeterminate).eftErr = none →
      enforce merge getEft rules
        = (decide (finalDecision merge getEft rules = Effect.allow), none)) := by
  refine ⟨?_, ?_, ?_⟩
  · intro rule rest effects ms res heff herr
    simp only [enforceLoop]
    rw [heff, herr]
    simp
  · intro rule rest effects ms res heff
    simp only [enforceLoop]
    simp [heff]
  · intro rules herr
    simp only [enforce]
    rw [herr]
    simp

/-- Witness for C1 with the permit-overrides effector on one allow rule:
the first merge call decides Allow, so the loop stops at once and enforce
returns true with a nil error. -/
theorem enforce_effector_protocol_witness :
    enforceLoop
        (fun effs _ complete =>
          ⟨if Effect.allow ∈ effs then Effect.allow
            else if complete then Effect.deny else Effect.indeterminate, [], none⟩)
        (fun _ => Effect.allow) [["p", "alice"], ["p", "bob"]] [] [] Effect.indeterminate
      = ⟨Effect.allow, [Effect.allow], [["p", "alice"]], none⟩
    ∧ enforce
        (fun effs _ complete =>
          ⟨if Effect.allow ∈ effs then Effect.allow
            else if complete then Effect.deny else Effect.indeterminate, [], none⟩)
        (fun _ => Effect.allow) [["p", "alice"], ["p", "bob"]]
      = (true, none) := by
  constructor
  · exact (enforce_effector_protocol
      (fun effs _ complete =>
        ⟨if Effect.allow ∈ effs then Effect.allow
          else if complete then Effect.deny else Effect.indeterminate, [], none⟩)
      (fun _ => Effect.allow)).2.1 ["p", "alice"] [["p", "bob"]] [] [] Effect.indeterminate
      (by decide)
  · have h := (enforce_effector_protocol
      (fun effs _ complete =>
        ⟨if Effect.allow ∈ effs then Effect.allow
          else if complete then Effect.deny else Effect.indeterminate, [], none⟩)
      (fun _ => Effect.allow)).2.2 [["p", "alice"], ["p", "bob"]] (by decide)
    rw [h]
    decide

lemma roleNeighbors_eq_nbrsL (rm : RoleManager) (n : String) :
    rm.roleNeighbors n = nbrsL rm.allRoles n := rfl

lemma roleFind_map (l : List (String × Role)) (f : String × Role → String × Role)
    (hk : ∀ kv, (f kv).1 = kv.1) (n : String) :
    (l.map f).find? (fun kv => kv.1 == n) = (l.find? (fun kv => kv.1 == n)).map f := by
  induction l with
  | nil => rfl
  | cons kv t ih =>
    simp only [List.map_cons, List.find?_cons]
    rw [hk kv]
    cases hb : (kv.1 == n)
    · simpa using ih
    · simp

lemma nbrsL_append_new (l : List (String × Role)) (x n : String) :
    nbrsL (l ++ [(x, newRole x)]) n = nbrsL l n := by
  unfold nbrsL
  rw [List.find?_append]
  cases h : l.find? (fun kv => kv.1 == n)
  · cases hx : (x == n) <;> simp [List.find?_cons, hx, newRole]
  · simp

lemma nbrsL_map (l : List (String × Role)) (f : String × Role → String × Role)
    (hk : ∀ kv, (f kv).1 = kv.1) (hr : ∀ kv, ((f kv).2).roles = kv.2.roles) (n : String) :
    nbrsL (l.map f) n = nbrsL l n := by
  unfold nbrsL
  rw [roleFind_map l f hk n]
  cases h : l.find? (fun kv => kv.1 == n)
  · simp
  · simp [hr]

lemma keys_map (l : List (String × Role)) (f : String × Role → String × Role)
    (hk : ∀ kv, (f kv).1 = kv.1) :
    (l.map f).map Prod.fst = l.map Prod.fst := by
  rw [List.map_map]
  exact List.map_congr_left (fun kv _ => hk kv)

lemma keys_filter (l : List (String × Role)) (x : String) :
    (l.filter (fun kv => kv.1 != x)).map Prod.fst
      = (l.map Prod.fst).filter (fun n => n != x) := by
  induction l with
  | nil => rfl
  | cons kv t ih =>
    cases hb : (kv.1 != x) <;> simp [List.filter_cons, hb, ih]

lemma filter_keys_self (ks : List String) (x : String) (hx : x ∉ ks) :
    ks.filter (fun n => n != x) = ks := by
  apply List.filter_eq_self.mpr
  intro a ha
  exact bne_iff_ne.mpr (fun e => hx (e ▸ ha))

lemma getRole_matcher (rm : RoleManager) (x : String) :
    ((rm.getRole x).2.1).matcher = rm.matcher := by
  unfold RoleManager.getRole
  split
  · rfl
  · split
    · rfl
    · split <;> rfl

lemma getRole_level (rm : RoleManager) (x : String) :
    ((rm.getRole x).2.1).maxHierarchyLevel = rm.maxHierarchyLevel := by
  unfold RoleManager.getRole
  split
  · rfl
  · split
    · rfl
    · split <;> rfl

lemma getRole_neighbors (rm : RoleManager) (x n : String) :
    ((rm.getRole x).2.1).roleNeighbors n = rm.roleNeighbors n := by
  unfold RoleManager.getRole
  split
  · rfl
  · split
    · rw [roleNeighbors_eq_nbrsL, roleNeighbors_eq_nbrsL]
      exact nbrsL_append_new _ _ _
    · split
      · rw [roleNeighbors_eq_nbrsL, roleNeighbors_eq_nbrsL]
        simp only [RoleManager.updateRole]
        rw [nbrsL_map _ _ (fun kv => by split <;> rfl) (fun kv => by split <;> rfl)]
        exact nbrsL_append_new _ _ _
      · rw [roleNeighbors_eq_nbrsL, roleNeighbors_eq_nbrsL]
        rw [nbrsL_map _ _ (fun kv => by split <;> rfl) (fun kv => by split <;> rfl)]
        exact nbrsL_append_new _ _ _

lemma getRole_not_created (rm : RoleManager) (x : String)
    (h : (rm.getRole x).2.2 = false) : (rm.getRole x).2.1 = rm := by
  unfold RoleManager.getRole at h ⊢
  split at h
  · rfl
  · split at h
    · cases h
    · split at h <;> cases h

lemma getRole_created_iff (rm : RoleManager) (x : String) :
    (rm.getRole x).2.2 = true ↔ rm.load x = none := by
  cases h : rm.load x with
  | none =>
    simp only [RoleManager.getRole, h]
    refine ⟨fun _ => trivial, fun _ => ?_⟩
    split
    · rfl
    · split <;> rfl
  | some r => simp [RoleManager.getRole, h]

lemma getRole_created_name (rm : RoleManager) (x : String)
    (h : (rm.getRole x).2.2 = true) : ((rm.getRole x).1).name = x := by
  unfold RoleManager.getRole at h ⊢
  split at h
  · cases h
  · split
    · rfl
    · split <;> rfl

lemma load_none_not_mem (rm : RoleManager) (x : String) (h : rm.load x = none) :
    x ∉ rm.roleKeys := by
  unfold RoleManager.load at h
  intro hx
  rcases List.mem_map.mp hx with ⟨kv, hkv, hfst⟩
  cases hf : rm.allRoles.find? (fun kv => kv.1 == x) with
  | some kv' => rw [hf] at h; cases h
  | none =>
    have := List.find?_eq_none.mp hf kv hkv
    simp [hfst] at this

lemma getRole_keys_created (rm : RoleManager) (x : String)
    (h : (rm.getRole x).2.2 = true) :
    ((rm.getRole x).2.1).roleKeys = rm.roleKeys ++ [x] := by
  unfold RoleManager.roleKeys
  unfold RoleManager.getRole at h ⊢
  split at h
  · cases h
  · split
    · simp
    · split
      · simp only [RoleManager.updateRole]
        rw [keys_map _ _ (fun kv => by split <;> rfl)]
        simp
      · rw [keys_map _ _ (fun kv => by split <;> rfl)]
        simp

lemma removeRole_keys (rm : RoleManager) (x : String) :
    (rm.removeRole x).roleKeys = rm.roleKeys.filter (fun n => n != x) := by
  unfold RoleManager.removeRole RoleManager.roleKeys
  cases hp : (rm.load x).isSome
  · simp only [hp, Bool.false_eq_true, ite_false]
    exact keys_filter _ _
  · simp only [hp, ite_true]
    rw [keys_map (rm.allRoles.filter (fun kv => kv.1 != x))
      (fun kv => (kv.1, { kv.2 with matched := kv.2.matched.filter (fun n => n != x) }))
      (fun kv => rfl)]
    exact keys_filter _ _

lemma expandFrontier_nil (rm : RoleManager) : rm.expandFrontier [] = [] := rfl

lemma expandK_nil (rm : RoleManager) : ∀ k, rm.expandK [] k = [] := by
  intro k
  induction k with
  | zero => rfl
  | succ n ih => simpa [RoleManager.expandK, expandFrontier_nil] using ih

lemma helper_congr (rm rm' : RoleManager) (t : String)
    (hn : ∀ n, rm'.roleNeighbors n = rm.roleNeighbors n)
    (hm : rm'.matcher = rm.matcher) :
    ∀ level f, rm'.hasLinkHelper t f level = rm.hasLinkHelper t f level := by
  have hmt : rm'.mtch = rm.mtch := by
    funext s p
    unfold RoleManager.mtch
    rw [hm]
  have hh : rm'.hitTarget t = rm.hitTarget t := by
    funext nm
    unfold RoleManager.hitTarget
    rw [hmt]
  have he : ∀ f, rm'.expandFrontier f = rm.expandFrontier f := by
    intro f
    unfold RoleManager.expandFrontier
    rw [funext hn]
  intro level
  induction level with
  | zero => intro f; rfl
  | succ n ih =>
    intro f
    simp only [RoleManager.hasLinkHelper]
    rw [hh, he, ih]

lemma hasLinkHelper_iff (rm : RoleManager) (t : String) :
    ∀ level f, rm.hasLinkHelper t f level = true ↔
      ∃ k, k < level ∧ (rm.expandK f k).any (rm.hitTarget t) = true := by
  intro level
  induction level with
  | zero =>
    intro f
    simp [RoleManager.hasLinkHelper]
  | succ n ih =>
    intro f
    simp only [RoleManager.hasLinkHelper]
    by_cases he : f.isEmpty
    · have hf : f = [] := by
        cases f
        · rfl
        · cases he
      subst hf
      simp only [he, if_true]
      constructor
      · intro h; cases h
      · rintro ⟨k, _, hky⟩
        rw [expandK_nil] at hky
        cases hky
    · by_cases hh : f.any (rm.hitTarget t) = true
      · constructor
        · intro _
          exact ⟨0, Nat.succ_pos n, by simpa [RoleManager.expandK] using hh⟩
        · intro _
          simp [he, hh]
      · have hh' : f.any (rm.hitTarget t) = false := by
          cases hx : f.any (rm.hitTarget t)
          · rfl
          · exact absurd hx hh
        simp only [he, hh', if_false, Bool.false_eq_true, ite_false]
        rw [ih]
        constructor
        · rintro ⟨k, hk, hky⟩
          exact ⟨k + 1, Nat.succ_lt_succ hk, by simpa [RoleManager.expandK] using hky⟩
        · rintro ⟨k, hk, hky⟩
          cases k with
          | zero =>
            rw [RoleManager.expandK] at hky
            rw [hky] at hh'
            cases hh'
          | succ k' =>
            exact ⟨k', Nat.lt_of_succ_lt_succ hk,
              by simpa [RoleManager.expandK] using hky⟩

lemma wf_getRole (rm : RoleManager) (x : String)
    (hwf : ∀ kv ∈ rm.allRoles, kv.2.name = kv.1) :
    ∀ kv ∈ ((rm.getRole x).2.1).allRoles, kv.2.name = kv.1 := by
  unfold RoleManager.getRole
  split
  · exact hwf
  · have hbase : ∀ kv ∈ rm.allRoles ++ [(x, newRole x)], kv.2.name = kv.1 := by
      intro kv hkv
      rcases List.mem_append.mp hkv with h | h
      · exact hwf kv h
      · simp only [List.mem_singleton] at h
        subst h
        rfl
    split
    · exact hbase
    · split
      · simp only [RoleManager.updateRole]
        intro kv hkv
        rcases List.mem_map.mp hkv with ⟨kv0, hkv0, hf⟩
        subst hf
        have := hbase kv0 hkv0
        split <;> simpa using this
      · intro kv hkv
        rcases List.mem_map.mp hkv with ⟨kv0, hkv0, hf⟩
        subst hf
        have := hbase kv0 hkv0
        split <;> simpa using this

lemma load_some_name (rm : RoleManager) (x : String) (r : Role)
    (hwf : ∀ kv ∈ rm.allRoles, kv.2.name = kv.1)
    (h : rm.load x = some r) : r.name = x := by
  unfold RoleManager.load at h
  cases hf : rm.allRoles.find? (fun kv => kv.1 == x) with
  | none => rw [hf] at h; cases h
  | some kv =>
    rw [hf] at h
    have hr : kv.2 = r := by
      simpa using h
    have hm := List.mem_of_find?_eq_some hf
    have hp : (kv.1 == x) = true := by
      simpa using List.find?_some hf
    rw [← hr, hwf kv hm]
    exact eq_of_beq hp

lemma getRole_name (rm : RoleManager) (x : String)
    (hwf : ∀ kv ∈ rm.allRoles, kv.2.name = kv.1) :
    ((rm.getRole x).1).name = x := by
  cases hc : (rm.getRole x).2.2 with
  | true => exact getRole_created_name rm x hc
  | false =>
    have : rm.load x ≠ none := by
      intro hn
      rw [← getRole_created_iff rm x] at hn
      rw [hc] at hn
      cases hn
    cases hl : rm.load x with
    | none => exact absurd hl this
    | some r =>
      have hr : (rm.getRole x).1 = r := by
        unfold RoleManager.getRole
        rw [hl]
      rw [hr]
      exact load_some_name rm x r hwf hl

/-- CLAIM C2: HasLink is reflexive with a nil error on every state,
including the empty graph: the first short-circuit branch fires on name
equality before the graph is consulted. -/
theorem hasLink_refl (rm : RoleManager) (x : String) :
    (rm.HasLink x x).1 = true ∧ (rm.HasLink x x).2.1 = none := by
  constructor <;> simp [RoleManager.HasLink]

lemma getRole_keys_cases (rm : RoleManager) (x : String) :
    ((rm.getRole x).2.2 = false ∧ (rm.getRole x).2.1 = rm)
    ∨ ((rm.getRole x).2.2 = true
        ∧ ((rm.getRole x).2.1).roleKeys = rm.roleKeys ++ [x]
        ∧ x ∉ rm.roleKeys ∧ ((rm.getRole x).1).name = x) := by
  cases hc : (rm.getRole x).2.2
  · exact Or.inl ⟨rfl, getRole_not_created rm x hc⟩
  · refine Or.inr ⟨rfl, getRole_keys_created rm x hc, ?_, getRole_created_name rm x hc⟩
    exact load_none_not_mem rm x ((getRole_created_iff rm x).mp hc)

lemma keys_append_remove (ks : List String) (x : String) (hx : x ∉ ks) :
    (ks ++ [x]).filter (fun n => n != x) = ks := by
  rw [List.filter_append, filter_keys_self ks x hx]
  simp

/-- CLAIM C4: the reachability search behind HasLink is a per-level
breadth-first expansion bounded by the configured depth.  At depth zero
it reports false; on an exhausted (empty) frontier it reports false; it
reports true exactly when some frontier reached within fewer than
`level` expansions contains a node that equals or pattern-matches the
target; and for distinct unmatched names HasLink itself decides exactly
bounded reachability within `maxHierarchyLevel` levels.  The search is a
total function, so it terminates on every graph, cyclic ones included. -/
theorem hasLink_bounded_bfs (rm : RoleManager) (target : String) :
    (∀ frontier, rm.hasLinkHelper target frontier 0 = false)
    ∧ (∀ level, rm.hasLinkHelper target [] level = false)
    ∧ (∀ frontier level, rm.hasLinkHelper target frontier level = true ↔
        ∃ k, k < level ∧ (rm.expandK frontier k).any (rm.hitTarget target) = true)
    ∧ (∀ a, (∀ kv ∈ rm.allRoles, kv.2.name = kv.1) → a ≠ target →
        rm.mtch a target = false →
        ((rm.HasLink a target).1 = true ↔
          ∃ k, k < rm.maxHierarchyLevel ∧
            (rm.expandK [a] k).any (rm.hitTarget target) = true)) := by
  refine ⟨?_, ?_, ?_, ?_⟩
  · intro frontier
    rfl
  · intro level
    cases level
    · rfl
    · simp [RoleManager.hasLinkHelper]
  · intro frontier level
    exact hasLinkHelper_iff rm target level frontier
  · intro a hwf hne hmt
    have hcond : ¬ (a = target ∨ rm.mtch a target = true) := by
      rintro (h | h)
      · exact hne h
      · rw [hmt] at h
        cases h
    rcases h1 : rm.getRole a with ⟨user, rm1, uc⟩
    rcases h2 : rm1.getRole target with ⟨role, rm2, rc⟩
    have huser : user.name = a := by
      have h := getRole_name rm a hwf
      rw [h1] at h
      exact h
    have hwf1 : ∀ kv ∈ rm1.allRoles, kv.2.name = kv.1 := by
      have h := wf_getRole rm a hwf
      rw [h1] at h
      exact h
    have hrole : role.name = target := by
      have h := getRole_name rm1 target hwf1
      rw [h2] at h
      exact h
    have hn2 : ∀ n, rm2.roleNeighbors n = rm.roleNeighbors n := by
      intro n
      have ha := getRole_neighbors rm a n
      rw [h1] at ha
      have hb := getRole_neighbors rm1 target n
      rw [h2] at hb
      exact hb.trans ha
    have hm2 : rm2.matcher = rm.matcher := by
      have ha := getRole_matcher rm a
      rw [h1] at ha
      have hb := getRole_matcher rm1 target
      rw [h2] at hb
      exact hb.trans ha
    have hl2 : rm2.maxHierarchyLevel = rm.maxHierarchyLevel := by
      have ha := getRole_level rm a
      rw [h1] at ha
      have hb := getRole_level rm1 target
      rw [h2] at hb
      exact hb.trans ha
    unfold RoleManager.HasLink
    rw [if_neg hcond]
    simp only [h1, h2]
    rw [huser, hrole, hl2]
    rw [helper_congr rm rm2 target hn2 hm2 rm.maxHierarchyLevel [a]]
    exact hasLinkHelper_iff rm target rm.maxHierarchyLevel [a]

/-- Witness for C4 on a cyclic graph: the bounded search decides that c
is not reachable from a inside the cycle a to b to a, and the query
returns false rather than diverging. -/
theorem hasLink_bounded_bfs_witness : (rmCyc.HasLink "a" "c").1 = false := by
  have h := (hasLink_bounded_bfs rmCyc "c").2.2.2 "a" (by decide) (by decide) (by decide)
  have h2 : ¬ ∃ k, k < rmCyc.maxHierarchyLevel ∧
      (rmCyc.expandK ["a"] k).any (rmCyc.hitTarget "c") = true := by
    rintro ⟨k, hk, hky⟩
    have hk3 : k < 3 := hk
    interval_cases k <;> exact absurd hky (by decide)
  cases hb : (rmCyc.HasLink "a" "c").1
  · rfl
  · exact absurd (h.mp hb) h2

/-- CLAIM C5: HasLink, GetRoles and GetUsers leave the set of stored
role names unchanged: every role created only to answer the query is
removed again before the call returns, so the key list of allRoles after
the call is the key list before it. -/
theorem queries_preserve_roles (rm : RoleManager) (a b n : String) :
    ((rm.HasLink a b).2.2).roleKeys = rm.roleKeys
    ∧ ((rm.GetRoles n).2.2).roleKeys = rm.roleKeys
    ∧ ((rm.GetUsers n).2.2).roleKeys = rm.roleKeys := by
  have single : ∀ (rm' : RoleManager) (x : String),
      ((if (rm'.getRole x).2.2 then
          ((rm'.getRole x).2.1).removeRole ((rm'.getRole x).1).name
        else (rm'.getRole x).2.1)).roleKeys = rm'.roleKeys := by
    intro rm' x
    rcases getRole_keys_cases rm' x with ⟨hc, hst⟩ | ⟨hc, hk, hnm, hname⟩
    · rw [hc]
      simp only [Bool.false_eq_true, ite_false]
      rw [hst]
    · rw [hc]
      simp only [ite_true]
      rw [hname, removeRole_keys, hk]
      exact keys_append_remove _ _ hnm
  refine ⟨?_, ?_, ?_⟩
  · unfold RoleManager.HasLink
    by_cases hcond : a = b ∨ rm.mtch a b = true
    · rw [if_pos hcond]
    · rw [if_neg hcond]
      rcases h1 : rm.getRole a with ⟨user, rm1, uc⟩
      have hu := getRole_keys_cases rm a
      rw [h1] at hu
      have hmid := single rm1 b
      rcases hu with ⟨huc, hst⟩ | ⟨huc, hk, hnm, hname⟩
      · have huc' : uc = false := huc
        have hst' : rm1 = rm := hst
        rw [huc']
        simp only [Bool.false_eq_true, ite_false]
        rw [hmid, hst']
      · have huc' : uc = true := huc
        have hk' : rm1.roleKeys = rm.roleKeys ++ [a] := hk
        have hname' : user.name = a := hname
        rw [huc']
        simp only [ite_true]
        rw [removeRole_keys, hmid, hk', hname']
        exact keys_append_remove _ _ hnm
  · unfold RoleManager.GetRoles
    exact single rm n
  · unfold RoleManager.GetUsers
    exact single rm n

/-- CLAIM C6: a match succeeds only when the entire input is consumed.
When getMatch returns a capture map the loop ended exactly at the input
length; when the loop leaves unconsumed input, or loses its draft, the
result is nil; Match and FindSubmatch inherit this; and inside the loop
an input exhausted (no separator left) before the last segment makes
the iteration return nil at once. -/
theorem match_consumes_entire_input (p : PathM) (s : List Char) (c : Bool) :
    ((getMatch p s c).isSome = true → (getMatchFull p s c).2 = s.length)
    ∧ ((getMatchFull p s c).2 ≠ s.length → getMatch p s c = none)
    ∧ ((getMatchFull p s c).1 = none → getMatch p s c = none)
    ∧ (p.Match s = true → (getMatchFull p s p.opts.equalCheck).2 = s.length)
    ∧ ((p.FindSubmatch s).isSome = true → (getMatchFull p s true).2 = s.length)
    ∧ (∀ fuel i sIdx ss save d seg, p.segs.get? i = some seg →
        (sliceSegment s p.opts.sep sIdx ss).2 = true → p.segs.length - 1 ≠ i →
        getMatchLoop p s (fuel + 1) i sIdx ss save d = (none, sIdx)) := by
  have hbase : ∀ c', (getMatch p s c').isSome = true → (getMatchFull p s c').2 = s.length := by
    intro c' h
    unfold getMatch at h
    cases hf : getMatchFull p s c' with
    | mk od n =>
      cases od with
      | none => rw [hf] at h; simp at h
      | some d =>
        rw [hf] at h
        simp only [] at h
        by_cases hn : s.length = n
        · exact hn.symm
        · rw [if_neg hn] at h; simp at h
  refine ⟨hbase c, ?_, ?_, hbase p.opts.equalCheck, hbase true, ?_⟩
  · intro hne
    unfold getMatch
    cases hf : getMatchFull p s c with
    | mk od n =>
      cases od with
      | none => rfl
      | some d =>
        rw [hf] at hne
        simp only [] at hne ⊢
        rw [if_neg (fun he => hne (Eq.symm he))]
  · intro hnone
    unfold getMatch
    cases hf : getMatchFull p s c with
    | mk od n =>
      rw [hf] at hnone
      simp only [] at hnone
      rw [hnone]
  · intro fuel i sIdx ss save d seg hget hdone hlast
    simp only [getMatchLoop, hget]
    rw [hdone]
    simp [hlast]

/-- Witness for C6: on the path /foo/:name the input /foo/bar consumes
everything and matches, while /foo/bar/baz leaves a suffix and /foo
exhausts the input early, and both are rejected. -/
theorem match_consumes_entire_input_witness :
    (getMatchFull pFooName (gs "/foo/bar") true).2 = (gs "/foo/bar").length
    ∧ pFooName.FindSubmatch (gs "/foo/bar/baz") = none
    ∧ pFooName.Match (gs "/foo") = false := by
  refine ⟨?_, ?_, ?_⟩
  · exact (match_consumes_entire_input pFooName (gs "/foo/bar") true).2.2.2.2.1
      (by decide)
  · have h := (match_consumes_entire_input pFooName (gs "/foo/bar/baz") true).2.1
      (by decide)
    exact h
  · decide

lemma wildcardKeys_cons (seg : Seg) (t : List Seg) :
    wildcardKeys (seg :: t) = wildcardKeys [seg] ++ wildcardKeys t := by
  cases seg <;> simp [wildcardKeys]

lemma segParse_no_wildcard (o : PathOpts) (sseg : List Char) (seg : Seg)
    (h : segParse o sseg = Except.ok seg) : wildcardKeys [seg] = [] := by
  unfold segParse at h
  split at h
  · cases h; rfl
  · split at h
    · cases h
    · split at h
      · split at h
        · cases h; rfl
        · cases hm : mixedStatics sseg 0 true [(_, _)] <;> rw [hm] at h <;>
            simp [Except.map] at h
          rw [← h]
          rfl
      · cases hm : mixedStatics sseg 0 true _ <;> rw [hm] at h <;>
            simp [Except.map] at h
        rw [← h]
        rfl

lemma compileSeg_shape (o : PathOpts) (u : Nat) (sseg : List Char) (seg : Seg) (u' : Nat)
    (h : compileSeg o u sseg = Except.ok (seg, u')) :
    (wildcardKeys [seg] = [] ∧ u' = u)
    ∨ (seg = Seg.wildcard ("$" ++ toString u) ∧ u' = u + 1) := by
  unfold compileSeg at h
  split at h
  · right
    cases h
    exact ⟨rfl, rfl⟩
  · left
    cases hp : segParse o sseg <;> rw [hp] at h <;> simp [Except.map] at h
    exact ⟨by rw [← h.1]; exact segParse_no_wildcard o sseg _ hp, h.2.symm⟩

lemma compileSegsAux_numbering (o : PathOpts) :
    ∀ (l : List (List Char)) (u : Nat) (segs : List Seg),
      compileSegsAux o l u = Except.ok segs →
      wildcardKeys segs
        = (List.range (wildcardKeys segs).length).map (fun i => "$" ++ toString (u + i)) := by
  intro l
  induction l with
  | nil =>
    intro u segs h
    cases h
    rfl
  | cons sseg rest ih =>
    intro u segs h
    unfold compileSegsAux at h
    cases hc : compileSeg o u sseg with
    | error e => rw [hc] at h; cases h
    | ok p1 =>
      obtain ⟨seg1, u1⟩ := p1
      rw [hc] at h
      simp only [] at h
      cases hr : compileSegsAux o rest u1 with
      | error e => rw [hr] at h; simp [Except.map] at h
      | ok tail =>
        rw [hr] at h
        simp only [Except.map] at h
        cases h
        have htail := ih u1 tail hr
        rcases compileSeg_shape o u sseg seg1 u1 hc with ⟨hk, hu⟩ | ⟨hseg, hu⟩
        · rw [wildcardKeys_cons, hk, List.nil_append, htail, hu]
          simp
        · rw [wildcardKeys_cons, hseg, htail, hu]
          simp only [wildcardKeys, List.singleton_append, List.length_cons,
            List.length_map, List.length_range]
          rw [List.range_succ_eq_map]
          simp only [List.map_cons, List.map_map, Nat.add_zero]
          refine congrArg _ ?_
          apply List.map_congr_left
          intro i _
          simp only [Function.comp]
          refine congrArg _ (congrArg _ ?_)
          omega

/-- CLAIM C7: unnamed wildcards get the synthesised keys dollar-0,
dollar-1, ... numbered from zero in source order, and the slash-star
pattern matches slash-a with the single capture a and a three-segment
input with the single capture spanning all remaining segments. -/
theorem wildcard_keys_numbering (o : PathOpts) (path : List Char) (p : PathM)
    (h : Compile o path = Except.ok p) :
    (wildcardKeys p.segs
      = (List.range (wildcardKeys p.segs).length).map (fun i => "$" ++ toString i))
    ∧ (Compile defaultOpts (gs "/*")).toOption = some pStar
    ∧ pStar.FindSubmatch (gs "/a") = some [("$0", "a")]
    ∧ pStar.FindSubmatch (gs "/a/b/c") = some [("$0", "a/b/c")] := by
  refine ⟨?_, by decide, by decide, by decide⟩
  unfold Compile at h
  cases ha : compileSegsAux o (goSplit path o.sep) 0 with
  | error e => rw [ha] at h; cases h
  | ok segs =>
    rw [ha] at h
    simp only [Except.map] at h
    cases h
    have := compileSegsAux_numbering o (goSplit path o.sep) 0 segs ha
    simpa using this

/-- Witness for C7 at the slash-star pattern itself. -/
theorem wildcard_keys_numbering_witness :
    wildcardKeys pStar.segs
      = (List.range (wildcardKeys pStar.segs).length).map (fun i => "$" ++ toString i) := by
  exact (wildcard_keys_numbering defaultOpts (gs "/*") pStar (by decide)).1

lemma mixedMatchAux_isSome (s : List Char) :
    ∀ (ks : List String) (sts : List (List Char)) (d1 d2 : Draft) (kE : Nat),
      (mixedMatchAux s ks sts d1 kE).isSome = (mixedMatchAux s ks sts d2 kE).isSome := by
  intro ks
  induction ks with
  | nil =>
    intro sts d1 d2 kE
    rcases sts with _ | ⟨last, rest2⟩
    · rfl
    rcases rest2 with _ | ⟨b, t⟩
    · simp only [mixedMatchAux]
      split <;> rfl
    · rfl
  | cons key ks ih =>
    intro sts d1 d2 kE
    rcases sts with _ | ⟨sta, rest⟩
    · rfl
    · simp only [mixedMatchAux]
      split
      · split
        · rfl
        · split
          · rfl
          · exact ih rest _ _ _
      · rfl

lemma segMatch_isSome (seg : Seg) (hseg : ∀ k, seg ≠ Seg.param k true)
    (d1 d2 : Draft) (str : List Char) :
    (segMatch seg d1 str).isSome = (segMatch seg d2 str).isSome := by
  cases seg with
  | static v =>
    simp only [segMatch]
    split <;> rfl
  | param key eqc =>
    cases eqc with
    | false =>
      simp only [segMatch]
      cases lookupKV d1.vals key <;> cases lookupKV d2.vals key <;> simp
    | true => exact absurd rfl (hseg key)
  | wildcard key => rfl
  | mixed keys statics => exact mixedMatchAux_isSome str keys statics d1 d2 0

lemma loop_capture_sim (p : PathM) (s : List Char)
    (hsegs : ∀ seg ∈ p.segs, ∀ k, seg ≠ Seg.param k true) :
    ∀ (fuel i sIdx ss : Nat) (save : SaveP) (d1 d2 : Draft),
      ((getMatchLoop p s fuel i sIdx ss save d1).1.isSome
        = (getMatchLoop p s fuel i sIdx ss save d2).1.isSome)
      ∧ ((getMatchLoop p s fuel i sIdx ss save d1).2
        = (getMatchLoop p s fuel i sIdx ss save d2).2) := by
  intro fuel
  induction fuel with
  | zero =>
    intro i sIdx ss save d1 d2
    exact ⟨rfl, rfl⟩
  | succ n ih =>
    intro i sIdx ss save d1 d2
    simp only [getMatchLoop]
    cases hget : p.segs.get? i with
    | none => exact ⟨rfl, rfl⟩
    | some seg =>
      have hseg : ∀ k, seg ≠ Seg.param k true := hsegs seg (List.get?_mem hget)
      have hms := segMatch_isSome seg hseg d1 d2 (sliceSegment s p.opts.sep sIdx ss).1
      simp only []
      split
      · exact ⟨rfl, rfl⟩
      · split
        · exact ⟨segMatch_isSome seg hseg d1 d2 (s.drop sIdx), rfl⟩
        · cases hm1 : segMatch seg d1 (sliceSegment s p.opts.sep sIdx ss).1 with
          | none =>
            cases hm2 : segMatch seg d2 (sliceSegment s p.opts.sep sIdx ss).1 with
            | none =>
              simp only []
              split
              · exact ih _ _ _ _ _ _
              · exact ⟨rfl, rfl⟩
            | some e2 =>
              rw [hm1, hm2] at hms
              simp at hms
          | some e1 =>
            cases hm2 : segMatch seg d2 (sliceSegment s p.opts.sep sIdx ss).1 with
            | none =>
              rw [hm1, hm2] at hms
              simp at hms
            | some e2 =>
              simp only []
              split
              · exact ⟨rfl, rfl⟩
              · exact ih _ _ _ _ _ _

lemma segParse_param_eqc (o : PathOpts) (sseg : List Char) (seg : Seg)
    (h : segParse o sseg = Except.ok seg) :
    ∀ k e, seg = Seg.param k e → e = o.equalCheck := by
  unfold segParse at h
  split at h
  · cases h
    intro k e he
    cases he
  · split at h
    · cases h
    · split at h
      · split at h
        · cases h
          intro k e he
          cases he
          rfl
        · cases hm : mixedStatics sseg 0 true [(_, _)] <;> rw [hm] at h <;>
            simp [Except.map] at h
          intro k e he
          rw [← h] at he
          cases he
      · cases hm : mixedStatics sseg 0 true _ <;> rw [hm] at h <;>
            simp [Except.map] at h
        intro k e he
        rw [← h] at he
        cases he

lemma compileSeg_param_eqc (o : PathOpts) (u : Nat) (sseg : List Char) (seg : Seg) (u' : Nat)
    (h : compileSeg o u sseg = Except.ok (seg, u')) :
    ∀ k e, seg = Seg.param k e → e = o.equalCheck := by
  unfold compileSeg at h
  split at h
  · cases h
    intro k e he
    cases he
  · cases hp : segParse o sseg <;> rw [hp] at h <;> simp [Except.map] at h
    intro k e he
    exact segParse_param_eqc o sseg _ hp k e (h.1.trans he)

lemma compileSegsAux_param_eqc (o : PathOpts) :
    ∀ (l : List (List Char)) (u : Nat) (segs : List Seg),
      compileSegsAux o l u = Except.ok segs →
      ∀ seg ∈ segs, ∀ k e, seg = Seg.param k e → e = o.equalCheck := by
  intro l
  induction l with
  | nil =>
    intro u segs h
    cases h
    intro seg hm
    cases hm
  | cons sseg rest ih =>
    intro u segs h
    unfold compileSegsAux at h
    cases hc : compileSeg o u sseg with
    | error e => rw [hc] at h; cases h
    | ok p1 =>
      obtain ⟨seg1, u1⟩ := p1
      rw [hc] at h
      simp only [] at h
      cases hr : compileSegsAux o rest u1 with
      | error e => rw [hr] at h; simp [Except.map] at h
      | ok tail =>
        rw [hr] at h
        simp only [Except.map] at h
        cases h
        intro seg hm
        rcases List.mem_cons.mp hm with he | ht
        · subst he
          exact compileSeg_param_eqc o u sseg seg u1 hc
        · exact ih u1 tail hr seg ht

/-- CLAIM C9: for every compiled path and input, Match is true exactly
when FindSubmatch returns a capture map: the capture-free and
capture-bearing runs agree on success.  With the equality check enabled
Match itself captures, so the two runs coincide; without it no segment
consults the capture map, so the loop makes identical decisions for
both drafts. -/
theorem match_iff_findSubmatch (o : PathOpts) (path : List Char) (p : PathM) (s : List Char)
    (h : Compile o path = Except.ok p) :
    (p.Match s = true ↔ (p.FindSubmatch s).isSome = true) := by
  have hopts : p.opts = o := by
    unfold Compile at h
    cases ha : compileSegsAux o (goSplit path o.sep) 0 with
    | error e => rw [ha] at h; cases h
    | ok segs =>
      rw [ha] at h
      simp only [Except.map] at h
      cases h
      rfl
  cases hec : o.equalCheck with
  | true =>
    unfold PathM.Match PathM.FindSubmatch
    rw [hopts, hec]
  | false =>
    have hsegs : ∀ seg ∈ p.segs, ∀ k, seg ≠ Seg.param k true := by
      intro seg hm k he
      have hsub : p.segs = p.segs := rfl
      have haux : ∀ seg ∈ p.segs, ∀ k e, seg = Seg.param k e → e = o.equalCheck := by
        unfold Compile at h
        cases ha : compileSegsAux o (goSplit path o.sep) 0 with
        | error e2 => rw [ha] at h; cases h
        | ok segs =>
          rw [ha] at h
          simp only [Except.map] at h
          cases h
          exact compileSegsAux_param_eqc o (goSplit path o.sep) 0 segs ha
      have := haux seg hm k true he
      rw [hec] at this
      cases this
    unfold PathM.Match PathM.FindSubmatch
    rw [hopts, hec]
    have hsim := loop_capture_sim p s hsegs
      ((s.length + 2) * (p.segs.length + 2) + 2) 0 0 0 ⟨0, 0, 0, false⟩ ⟨false, []⟩ ⟨true, []⟩
    unfold getMatch getMatchFull
    cases hf1 : getMatchLoop p s ((s.length + 2) * (p.segs.length + 2) + 2) 0 0 0
        ⟨0, 0, 0, false⟩ ⟨false, []⟩ with
    | mk od1 n1 =>
      cases hf2 : getMatchLoop p s ((s.length + 2) * (p.segs.length + 2) + 2) 0 0 0
          ⟨0, 0, 0, false⟩ ⟨true, []⟩ with
      | mk od2 n2 =>
        rw [hf1, hf2] at hsim
        simp only [] at hsim
        cases od1 with
        | none =>
          cases od2 with
          | none => simp
          | some d2 => simp at hsim
        | some d1 =>
          cases od2 with
          | none => simp at hsim
          | some d2 =>
            rw [hsim.2]
            simp only []
            by_cases hn : s.length = n2
            · rw [if_pos hn, if_pos hn]
              simp
            · rw [if_neg hn, if_neg hn]

/-- Witness for C9 on the compiled path /foo/:name and the input
/foo/bar. -/
theorem match_iff_findSubmatch_witness :
    pFooName.Match (gs "/foo/bar") = true
      ↔ (pFooName.FindSubmatch (gs "/foo/bar")).isSome = true :=
  match_iff_findSubmatch defaultOpts (gs "/foo/:name") pFooName (gs "/foo/bar") (by decide)

lemma exceptMap_error_iff {a b : Type} (f : a → b) (x : Except CompileErr a)
    (e : CompileErr) : Except.map f x = Except.error e ↔ x = Except.error e := by
  cases x <;> simp [Except.map]

lemma mixedStatics_error (sseg : List Char) :
    ∀ (locs : List (Nat × Nat)) (start : Nat) (first : Bool) (e : CompileErr),
      mixedStatics sseg start first locs = Except.error e → e = CompileErr.emptyBetween := by
  intro locs
  induction locs with
  | nil =>
    intro start first e h
    cases h
  | cons ab rest ih =>
    intro start first e h
    obtain ⟨a, b⟩ := ab
    unfold mixedStatics at h
    simp only [] at h
    split at h
    · cases h
      rfl
    · rw [exceptMap_error_iff] at h
      exact ih b false e h

lemma scanKeys_error_sfx (o : PathOpts) (sseg : List Char)
    (hs : ¬ o.sfx.isEmpty = true) :
    ∀ (fuel ip : Nat) (keys : List String) (locs : List (Nat × Nat)) (e : CompileErr),
      scanKeys o sseg fuel ip keys locs = Except.error e → e = CompileErr.sfxNotFound := by
  intro fuel
  induction fuel with
  | zero =>
    intro ip keys locs e h
    cases h
  | succ n ih =>
    intro ip keys locs e h
    unfold scanKeys at h
    rw [if_neg hs] at h
    split at h
    · injection h with h2
      exact h2.symm
    · split at h
      · cases h
      · exact ih _ _ _ _ h

lemma scanKeys_error_nosfx (o : PathOpts) (sseg : List Char)
    (hs : o.sfx.isEmpty = true) :
    ∀ (fuel ip : Nat) (keys : List String) (locs : List (Nat × Nat)) (e : CompileErr),
      scanKeys o sseg fuel ip keys locs = Except.error e → e = CompileErr.bareKey := by
  intro fuel
  induction fuel with
  | zero =>
    intro ip keys locs e h
    cases h
  | succ n ih =>
    intro ip keys locs e h
    unfold scanKeys at h
    rw [if_pos hs] at h
    split at h
    · injection h with h2
      exact h2.symm
    · split at h
      · injection h with h2
        exact h2.symm
      · split at h
        · cases h
        · exact ih _ _ _ _ h

lemma segParse_error_kind (o : PathOpts) (sseg : List Char) (e : CompileErr)
    (h : segParse o sseg = Except.error e) :
    (¬ o.sfx.isEmpty = true → e = CompileErr.sfxNotFound ∨ e = CompileErr.emptyBetween)
    ∧ (o.sfx.isEmpty = true → e = CompileErr.bareKey ∨ e = CompileErr.emptyBetween) := by
  unfold segParse at h
  split at h
  · cases h
  · split at h
    · injection h with h2
      subst h2
      constructor
      · intro hs
        exact Or.inl (scanKeys_error_sfx o sseg hs _ _ _ _ _ (by assumption))
      · intro hs
        exact Or.inl (scanKeys_error_nosfx o sseg hs _ _ _ _ _ (by assumption))
    · split at h
      · split at h
        · cases h
        · rw [exceptMap_error_iff] at h
          have hmb := mixedStatics_error sseg _ _ _ e h
          exact ⟨fun _ => Or.inr hmb, fun _ => Or.inr hmb⟩
      · rw [exceptMap_error_iff] at h
        have hmb := mixedStatics_error sseg _ _ _ e h
        exact ⟨fun _ => Or.inr hmb, fun _ => Or.inr hmb⟩

/-- CLAIM C8 counterexample: with the default options the suffix is
empty, yet Compile rejects the pattern consisting of a bare prefix with
no name after it — an error that is neither an unterminated suffix (no
non-empty suffix is configured) nor an empty literal between two
adjacent keys (there is only one prefix occurrence). -/
theorem compile_error_kinds_cex :
    Compile defaultOpts (gs "/:") = Except.error CompileErr.bareKey
    ∧ defaultOpts.sfx = [] := by
  constructor
  · decide
  · rfl

lemma compileSeg_error_iff (o : PathOpts) (u : Nat) (sseg : List Char) (e : CompileErr) :
    compileSeg o u sseg = Except.error e ↔ segError o sseg = some e := by
  unfold compileSeg segError
  by_cases hw : sseg = o.wc
  · rw [if_pos hw, if_pos hw]
    constructor
    · intro h
      cases h
    · intro h
      cases h
  · rw [if_neg hw, if_neg hw]
    rw [exceptMap_error_iff]
    cases hp : segParse o sseg <;> simp

lemma compileSegsAux_error_iff (o : PathOpts) :
    ∀ (l : List (List Char)) (u : Nat),
      (∃ e, compileSegsAux o l u = Except.error e) ↔
        ∃ sseg, sseg ∈ l ∧ segError o sseg ≠ none := by
  intro l
  induction l with
  | nil =>
    intro u
    constructor
    · rintro ⟨e, h⟩
      cases h
    · rintro ⟨sseg, hm, _⟩
      cases hm
  | cons sseg rest ih =>
    intro u
    unfold compileSegsAux
    cases hc : compileSeg o u sseg with
    | error e =>
      constructor
      · rintro ⟨e2, h⟩
        refine ⟨sseg, List.mem_cons_self sseg rest, ?_⟩
        rw [(compileSeg_error_iff o u sseg e).mp hc]
        intro hx
        cases hx
      · intro _
        exact ⟨e, rfl⟩
    | ok p1 =>
      obtain ⟨seg1, u1⟩ := p1
      have hseg1 : segError o sseg = none := by
        cases hse : segError o sseg with
        | none => rfl
        | some e =>
          have := (compileSeg_error_iff o u sseg e).mpr hse
          rw [hc] at this
          cases this
      constructor
      · rintro ⟨e, h⟩
        have h' : compileSegsAux o rest u1 = Except.error e := by
          simp only [] at h
          exact (exceptMap_error_iff _ _ e).mp h
        rcases (ih u1).mp ⟨e, h'⟩ with ⟨s2, hm2, he2⟩
        exact ⟨s2, List.mem_cons_of_mem _ hm2, he2⟩
      · rintro ⟨s2, hm2, he2⟩
        rcases List.mem_cons.mp hm2 with he | hm3
        · subst he
          exact absurd hseg1 he2
        · rcases (ih u1).mpr ⟨s2, hm3, he2⟩ with ⟨e, he⟩
          refine ⟨e, ?_⟩
          simp only []
          exact (exceptMap_error_iff _ _ e).mpr he

/-- CLAIM C8 (amended): Compile fails exactly when one of its separated
segments fails, and a segment fails in exactly three situations: a
non-empty suffix is configured and missing after a key (sfxNotFound,
never raised with the empty suffix), the empty suffix is configured and
a prefix occurrence is not followed by a name character (bareKey, never
raised with a non-empty suffix), or two adjacent keys have no literal
character between them (emptyBetween); wildcard and prefix-free static
segments never fail. -/
theorem compile_error_classification (o : PathOpts) (path : List Char) :
    ((∃ e, Compile o path = Except.error e) ↔
      ∃ sseg, sseg ∈ goSplit path o.sep ∧ segError o sseg ≠ none)
    ∧ (∀ sseg e, o.sfx = [] → segError o sseg = some e →
        e = CompileErr.bareKey ∨ e = CompileErr.emptyBetween)
    ∧ (∀ sseg e, o.sfx ≠ [] → segError o sseg = some e → e ≠ CompileErr.bareKey)
    ∧ (∀ sseg, sseg = o.wc ∨ idxOf o.pfx sseg = none → segError o sseg = none) := by
  refine ⟨?_, ?_, ?_, ?_⟩
  · unfold Compile
    constructor
    · rintro ⟨e, h⟩
      have h' : compileSegsAux o (goSplit path o.sep) 0 = Except.error e :=
        (exceptMap_error_iff _ _ e).mp h
      exact (compileSegsAux_error_iff o (goSplit path o.sep) 0).mp ⟨e, h'⟩
    · intro hx
      rcases (compileSegsAux_error_iff o (goSplit path o.sep) 0).mpr hx with ⟨e, he⟩
      exact ⟨e, (exceptMap_error_iff _ _ e).mpr he⟩
  · intro sseg e hs hse
    unfold segError at hse
    split at hse
    · cases hse
    · split at hse
      · injection hse with h2
        subst h2
        refine (segParse_error_kind o sseg _ (by assumption)).2 ?_
        rw [hs]
        rfl
      · cases hse
  · intro sseg e hs hse he
    unfold segError at hse
    split at hse
    · cases hse
    · split at hse
      · injection hse with h2
        subst h2
        have hsf : ¬ o.sfx.isEmpty = true := by
          cases hx : o.sfx with
          | nil => exact absurd hx hs
          | cons c t => simp
        rcases (segParse_error_kind o sseg _ (by assumption)).1 hsf with h1 | h1 <;>
          rw [he] at h1 <;> cases h1
      · cases hse
  · intro sseg hcase
    unfold segError
    rcases hcase with hw | hn
    · rw [if_pos hw]
    · by_cases hw : sseg = o.wc
      · rw [if_pos hw]
      · rw [if_neg hw]
        unfold segParse
        rw [hn]

/-- Witness for the amended C8: a pattern with two adjacent keys fails
to compile because one of its segments carries a segment error, and a
plain static segment never produces one. -/
theorem compile_error_classification_witness :
    (∃ e, Compile defaultOpts (gs "/:a:b") = Except.error e)
    ∧ segError defaultOpts (gs "abc") = none := by
  constructor
  · exact (compile_error_classification defaultOpts (gs "/:a:b")).1.mpr
      ⟨gs ":a:b", by decide, by decide⟩
  · exact (compile_error_classification defaultOpts (gs "/abc")).2.2.2 (gs "abc")
      (Or.inr (by decide))

end Fastac
